import Mathlib

/-!
Verification of the RBAC migrations module (`src/edwh_auth_rbac/migrations.py`).

The module defines three tables (`identity`, `membership`, `permission`),
two recursive SQL views (`recursive_memberships`, `recursive_members`),
a tree-rendering SQL function (`rbac_tree`), and a migration adding
defaults / NOT NULL to the `permission.starts` / `permission.ends` columns.

We embed the SQL shallowly: a database is a list of identity rows and a
list of membership rows; a recursive CTE with `UNION ALL` is embedded as
the level-indexed family of row lists it generates (level `n` holds the
rows produced by the `n`-th unfolding of the recursive term; the full
view is the union over all levels, which is infinite exactly when the
CTE does not terminate).  String comparison (Postgres `ORDER BY` and
`<=` on `char` columns) is embedded as code-point lexicographic order.
-/

/-- The `identity` table row (columns used by the views; `object_id` is
`NOT NULL UNIQUE`, `fullname` is nullable and feeds `COALESCE`). -/
structure Identity where
  object_id : String
  object_type : String
  email : String
  firstname : String
  fullname : Option String
  deriving DecidableEq

/-- The `membership` table row: `subject` is a direct member of `member_of`. -/
structure MembershipRow where
  subject : String
  member_of : String
  deriving DecidableEq

/-- The `permission` table row after the defaults migration: `starts` and
`ends` are `NOT NULL` strings. -/
structure Permission where
  privilege : String
  identity_object_id : String
  target_object_id : String
  starts : String
  ends : String
  deriving DecidableEq

/-- A database state: the contents of the `identity` and `membership` tables. -/
structure Db where
  identities : List Identity
  memberships : List MembershipRow
  deriving DecidableEq

/-- The set (as a list) of `object_id`s present in the `identity` table. -/
def ids (db : Db) : List String := db.identities.map (fun i => i.object_id)

/-- A row of the recursive views: `(root, object_id, object_type, level,
email, firstname, fullname)`. -/
structure MRow where
  root : String
  object_id : String
  object_type : String
  level : Nat
  email : String
  firstname : String
  fullname : Option String
  deriving DecidableEq

/-- Base case of both views: each identity is related to itself at level 0. -/
def identityRow (i : Identity) : MRow :=
  { root := i.object_id, object_id := i.object_id, object_type := i.object_type,
    level := 0, email := i.email, firstname := i.firstname, fullname := i.fullname }

/-- Row built by the recursive case of `recursive_memberships`:
`SELECT root, membership.member_of, i.object_type, m.level + 1, i.email,
i.firstname, i.fullname`. -/
def mkMembRow (r : MRow) (e : MembershipRow) (i : Identity) : MRow :=
  { root := r.root, object_id := e.member_of, object_type := i.object_type,
    level := r.level + 1, email := i.email, firstname := i.firstname, fullname := i.fullname }

/-- One unfolding of the recursive term of `recursive_memberships`:
`FROM membership JOIN m ON subject = m.object_id
JOIN identity i ON i.object_id = membership.member_of`. -/
def membershipsStep (db : Db) (prev : List MRow) : List MRow :=
  db.memberships.flatMap fun e =>
    (prev.filter fun r => r.object_id == e.subject).flatMap fun r =>
      (db.identities.filter fun i => i.object_id == e.member_of).map fun i =>
        mkMembRow r e i

/-- The rows contributed at level `n` by the `recursive_memberships` view
(`WITH RECURSIVE ... UNION ALL ...`); the view's row multiset is the union
over all `n`. -/
def recursive_memberships (db : Db) : Nat → List MRow
  | 0 => db.identities.map identityRow
  | n + 1 => membershipsStep db (recursive_memberships db n)

/-- Row built by the recursive case of `recursive_members`:
`SELECT root, membership.subject, i.object_type, m.level + 1, ...`. -/
def mkMemRow (r : MRow) (e : MembershipRow) (i : Identity) : MRow :=
  { root := r.root, object_id := e.subject, object_type := i.object_type,
    level := r.level + 1, email := i.email, firstname := i.firstname, fullname := i.fullname }

/-- One unfolding of the recursive term of `recursive_members`:
`FROM membership JOIN m ON member_of = m.object_id
JOIN identity i ON i.object_id = membership.subject`. -/
def membersStep (db : Db) (prev : List MRow) : List MRow :=
  db.memberships.flatMap fun e =>
    (prev.filter fun r => r.object_id == e.member_of).flatMap fun r =>
      (db.identities.filter fun i => i.object_id == e.subject).map fun i =>
        mkMemRow r e i

/-- The rows contributed at level `n` by the `recursive_members` view. -/
def recursive_members (db : Db) : Nat → List MRow
  | 0 => db.identities.map identityRow
  | n + 1 => membersStep db (recursive_members db n)

lemma mem_membershipsStep {db : Db} {prev : List MRow} {r : MRow} :
    r ∈ membershipsStep db prev ↔
      ∃ e ∈ db.memberships, ∃ r0 ∈ prev, r0.object_id = e.subject ∧
        ∃ i ∈ db.identities, i.object_id = e.member_of ∧ r = mkMembRow r0 e i := by
  constructor
  · intro h
    simp only [membershipsStep, List.mem_flatMap, List.mem_filter, List.mem_map,
      beq_iff_eq] at h
    obtain ⟨e, he, r0, ⟨hr0, hsub⟩, i, ⟨hi, him⟩, hr⟩ := h
    exact ⟨e, he, r0, hr0, hsub, i, hi, him, hr.symm⟩
  · rintro ⟨e, he, r0, hr0, hsub, i, hi, him, hr⟩
    simp only [membershipsStep, List.mem_flatMap, List.mem_filter, List.mem_map,
      beq_iff_eq]
    exact ⟨e, he, r0, ⟨hr0, hsub⟩, i, ⟨hi, him⟩, hr.symm⟩

lemma level_recursive_memberships {db : Db} :
    ∀ {n : Nat} {r : MRow}, r ∈ recursive_memberships db n → r.level = n := by
  intro n
  induction n with
  | zero =>
    intro r hr
    simp only [recursive_memberships, List.mem_map] at hr
    obtain ⟨i, _, rfl⟩ := hr
    rfl
  | succ n ih =>
    intro r hr
    obtain ⟨e, _, r0, hr0, _, i, _, _, rfl⟩ :=
      mem_membershipsStep.mp (by simpa [recursive_memberships] using hr)
    simp [mkMembRow, ih hr0]

lemma root_mem_ids_recursive_memberships {db : Db} :
    ∀ {n : Nat} {r : MRow}, r ∈ recursive_memberships db n → r.root ∈ ids db := by
  intro n
  induction n with
  | zero =>
    intro r hr
    simp only [recursive_memberships, List.mem_map] at hr
    obtain ⟨i, hi, rfl⟩ := hr
    exact List.mem_map.mpr ⟨i, hi, rfl⟩
  | succ n ih =>
    intro r hr
    obtain ⟨e, _, r0, hr0, _, i, _, _, rfl⟩ :=
      mem_membershipsStep.mp (by simpa [recursive_memberships] using hr)
    simpa [mkMembRow] using ih hr0

/-- A membership walk of length `n` from `x` to `y` whose every node has a
row in the `identity` table: exactly the joins performed by the
`recursive_memberships` view. -/
inductive MWalk (db : Db) : String → String → Nat → Prop where
  | base : ∀ x, x ∈ ids db → MWalk db x x 0
  | step : ∀ {x y z : String} {n : Nat} (e : MembershipRow), MWalk db x y n →
      e ∈ db.memberships → e.subject = y → e.member_of = z → z ∈ ids db →
      MWalk db x z (n + 1)

lemma walk_of_row {db : Db} :
    ∀ {n : Nat} {r : MRow}, r ∈ recursive_memberships db n →
      MWalk db r.root r.object_id n := by
  intro n
  induction n with
  | zero =>
    intro r hr
    simp only [recursive_memberships, List.mem_map] at hr
    obtain ⟨i, hi, rfl⟩ := hr
    exact MWalk.base i.object_id (List.mem_map.mpr ⟨i, hi, rfl⟩)
  | succ n ih =>
    intro r hr
    obtain ⟨e, he, r0, hr0, hsub, i, hi, him, rfl⟩ :=
      mem_membershipsStep.mp (by simpa [recursive_memberships] using hr)
    have hw : MWalk db r0.root e.subject n := hsub ▸ ih hr0
    have hz : e.member_of ∈ ids db := him ▸ List.mem_map.mpr ⟨i, hi, rfl⟩
    exact MWalk.step e hw he rfl rfl hz

lemma row_of_walk {db : Db} {x y : String} {n : Nat} (w : MWalk db x y n) :
    ∃ r ∈ recursive_memberships db n, r.root = x ∧ r.object_id = y := by
  induction w with
  | base hx =>
    obtain ⟨i, hi, hid⟩ := List.mem_map.mp hx
    exact ⟨identityRow i, List.mem_map.mpr ⟨i, hi, rfl⟩, by simp [identityRow, hid]⟩
  | step e _ he hs hm hz ih =>
    obtain ⟨r0, hr0, hroot, hobj⟩ := ih
    obtain ⟨i, hi, hid⟩ := List.mem_map.mp hz
    refine ⟨mkMembRow r0 e i,
      mem_membershipsStep.mpr ⟨e, he, r0, hr0, ?_, i, hi, ?_, rfl⟩, ?_⟩
    · rw [hobj, hs]
    · rw [hid, hm]
    · simp [mkMembRow, hroot, hm]

lemma row_iff_walk {db : Db} {x y : String} {n : Nat} :
    (∃ r ∈ recursive_memberships db n, r.root = x ∧ r.object_id = y) ↔
      MWalk db x y n := by
  constructor
  · rintro ⟨r, hr, rfl, rfl⟩
    exact walk_of_row hr
  · exact row_of_walk

/-- The database with every membership edge reversed; `recursive_members`
on `db` coincides with `recursive_memberships` on `revDb db`. -/
def revDb (db : Db) : Db :=
  { identities := db.identities,
    memberships := db.memberships.map fun e =>
      { subject := e.member_of, member_of := e.subject } }

lemma flatMap_map_eq {α β γ : Type} (f : α → β) (g : β → List γ) :
    ∀ l : List α, (l.map f).flatMap g = l.flatMap (fun a => g (f a))
  | [] => rfl
  | a :: l => by simp only [List.map_cons, List.flatMap_cons, flatMap_map_eq f g l]

lemma membersStep_eq_rev (db : Db) (prev : List MRow) :
    membersStep db prev = membershipsStep (revDb db) prev := by
  show membersStep db prev
      = (db.memberships.map fun e =>
          ({ subject := e.member_of, member_of := e.subject } : MembershipRow)).flatMap _
  rw [flatMap_map_eq]
  rfl

lemma recursive_members_eq_rev (db : Db) :
    ∀ n : Nat, recursive_members db n = recursive_memberships (revDb db) n
  | 0 => rfl
  | n + 1 => by
    show membersStep db (recursive_members db n)
        = membershipsStep (revDb db) (recursive_memberships (revDb db) n)
    rw [recursive_members_eq_rev db n, membersStep_eq_rev]

lemma ids_revDb (db : Db) : ids (revDb db) = ids db := rfl

/-- A two-cycle `a ↔ b` with both nodes in the identity table pumps walks
of every length. -/
lemma two_cycle_pump {db : Db} {a b : String}
    (hab : (⟨a, b⟩ : MembershipRow) ∈ db.memberships)
    (hba : (⟨b, a⟩ : MembershipRow) ∈ db.memberships)
    (ha : a ∈ ids db) (hb : b ∈ ids db) :
    ∀ n : Nat, MWalk db a a n ∨ MWalk db a b n := by
  intro n
  induction n with
  | zero => exact Or.inl (MWalk.base a ha)
  | succ n ih =>
    rcases ih with h | h
    · exact Or.inr (MWalk.step ⟨a, b⟩ h hab rfl rfl hb)
    · exact Or.inl (MWalk.step ⟨b, a⟩ h hba rfl rfl ha)

/-- Identity fixtures for the concrete databases used below. -/
def idA : Identity :=
  { object_id := "A", object_type := "group", email := "a@x",
    firstname := "A", fullname := none }

def idB : Identity :=
  { object_id := "B", object_type := "group", email := "b@x",
    firstname := "B", fullname := none }

/-- Cyclic database: `A` is a member of `B` and `B` is a member of `A`. -/
def cycDb : Db := { identities := [idA, idB], memberships := [⟨"A", "B"⟩, ⟨"B", "A"⟩] }

/-- Claim C1: on a graph with a cycle (`A` member of `B`, `B` member of `A`)
the claim says the views restricted to root `A` terminate and contain each
of `A`, `B` exactly once.  The code's recursive CTEs use `UNION ALL` with
no cycle protection: we prove that at EVERY level `n` both views emit a
row with root `A` (and level `n`), so the recursive query never reaches an
empty level — it does not terminate, and the identities of the cycle occur
at unboundedly many levels rather than exactly once. -/
theorem C1_cycle_views_do_not_terminate :
    ∀ n : Nat,
      (∃ r ∈ recursive_memberships cycDb n, r.root = "A" ∧ r.level = n) ∧
      (∃ r ∈ recursive_members cycDb n, r.root = "A" ∧ r.level = n) := by
  intro n
  constructor
  · have h : MWalk cycDb "A" "A" n ∨ MWalk cycDb "A" "B" n :=
      two_cycle_pump (by decide) (by decide) (by decide) (by decide) n
    rcases h with h | h
    · obtain ⟨r, hr, hroot, _⟩ := row_of_walk h
      exact ⟨r, hr, hroot, level_recursive_memberships hr⟩
    · obtain ⟨r, hr, hroot, _⟩ := row_of_walk h
      exact ⟨r, hr, hroot, level_recursive_memberships hr⟩
  · have h : MWalk (revDb cycDb) "A" "A" n ∨ MWalk (revDb cycDb) "A" "B" n :=
      two_cycle_pump (by decide) (by decide) (by decide) (by decide) n
    rw [recursive_members_eq_rev]
    rcases h with h | h
    · obtain ⟨r, hr, hroot, _⟩ := row_of_walk h
      exact ⟨r, hr, hroot, level_recursive_memberships hr⟩
    · obtain ⟨r, hr, hroot, _⟩ := row_of_walk h
      exact ⟨r, hr, hroot, level_recursive_memberships hr⟩

lemma object_id_mem_ids_recursive_memberships {db : Db} :
    ∀ {n : Nat} {r : MRow}, r ∈ recursive_memberships db n → r.object_id ∈ ids db := by
  intro n
  induction n with
  | zero =>
    intro r hr
    simp only [recursive_memberships, List.mem_map] at hr
    obtain ⟨i, hi, rfl⟩ := hr
    exact List.mem_map.mpr ⟨i, hi, rfl⟩
  | succ n _ =>
    intro r hr
    obtain ⟨e, _, r0, _, _, i, hi, him, rfl⟩ :=
      mem_membershipsStep.mp (by simpa [recursive_memberships] using hr)
    exact List.mem_map.mpr ⟨i, hi, by simp [mkMembRow, him]⟩

/-- Acyclic diamond: `x` is a member of `y` and of `z`; `z` is a member of
`y`.  Two distinct membership paths lead from `x` to `y`. -/
def idX : Identity :=
  { object_id := "x", object_type := "user", email := "x@x",
    firstname := "x", fullname := none }

def idY : Identity :=
  { object_id := "y", object_type := "group", email := "y@x",
    firstname := "y", fullname := none }

def idZ : Identity :=
  { object_id := "z", object_type := "group", email := "z@x",
    firstname := "z", fullname := none }

def exDb2 : Db :=
  { identities := [idX, idY, idZ],
    memberships := [⟨"x", "y"⟩, ⟨"x", "z"⟩, ⟨"z", "y"⟩] }

/-- Claim C2 counterexample: in the acyclic diamond `exDb2` (no identity is
related to itself at any positive level and the view is exhausted at level
3, so the graph is acyclic), the ancestor closure of root `x` contains TWO
records for `y` — one at level 1 and one at level 2 — and the level-2
record's level is not the shortest-path hop count (which is 1).  This
refutes the claim that the closure contains exactly one record per
identity, carrying the shortest-path level. -/
theorem C2_counterexample :
    ((recursive_memberships exDb2 1).filter
        (fun r => r.root == "x" && r.object_id == "y")).length = 1 ∧
    ((recursive_memberships exDb2 2).filter
        (fun r => r.root == "x" && r.object_id == "y")).length = 1 ∧
    ((recursive_memberships exDb2 2).filter
        (fun r => r.root == "x" && r.object_id == "y")).all (fun r => r.level == 2) = true ∧
    recursive_memberships exDb2 3 = [] ∧
    ((recursive_memberships exDb2 1).filter (fun r => r.root == r.object_id)).length = 0 ∧
    ((recursive_memberships exDb2 2).filter (fun r => r.root == r.object_id)).length = 0 := by
  decide

/-- Claim C2, amended: the ancestor closure of `x` contains one record
`(x, y)` at level `n` exactly when there is a membership walk of length `n`
from `x` to `y` through stored identities — i.e. one record per walk, whose
level is that walk's length (not uniquely the shortest); moreover every
record at unfolding depth `n` carries level `n`. -/
theorem C2_amended_rows_are_walks (db : Db) (x y : String) (n : Nat) :
    ((∃ r ∈ recursive_memberships db n, r.root = x ∧ r.object_id = y) ↔ MWalk db x y n) ∧
    (∀ r ∈ recursive_memberships db n, r.level = n) :=
  ⟨row_iff_walk, fun _ hr => level_recursive_memberships hr⟩

theorem C2_amended_rows_are_walks_witness : MWalk exDb2 "x" "y" 2 :=
  (C2_amended_rows_are_walks exDb2 "x" "y" 2).1.mp (by decide)

/-- Database containing a single identity `A` and no membership edges. -/
def exDb7 : Db := { identities := [idA], memberships := [] }

/-- Claim C7 counterexample: restricting both views to the non-existent
root `"ghost"` yields no rows at level 0, and level 1 (hence every further
level) is empty — the views are total queries that return an empty result
for an unknown root, they do not fail with a `NotFound` error. -/
theorem C7_counterexample :
    ((recursive_memberships exDb7 0).filter (fun r => r.root == "ghost") = [] ∧
      recursive_memberships exDb7 1 = []) ∧
    ((recursive_members exDb7 0).filter (fun r => r.root == "ghost") = [] ∧
      recursive_members exDb7 1 = []) := by
  decide

/-- Claim C7, amended: for a root id absent from the `identity` table, both
views restricted to that root return the empty result (every row of either
view has a root drawn from the `identity` table); no error is raised. -/
theorem C7_amended_unknown_root_yields_empty (db : Db) (x : String) (hx : x ∉ ids db) :
    (∀ n : Nat, ∀ r ∈ recursive_memberships db n, r.root ≠ x) ∧
    (∀ n : Nat, ∀ r ∈ recursive_members db n, r.root ≠ x) := by
  constructor
  · intro n r hr h
    exact hx (h ▸ root_mem_ids_recursive_memberships hr)
  · intro n r hr h
    rw [recursive_members_eq_rev] at hr
    have hroot := @root_mem_ids_recursive_memberships (revDb db) n r hr
    rw [ids_revDb] at hroot
    exact hx (h ▸ hroot)

theorem C7_amended_unknown_root_yields_empty_witness :
    "ghost" ∉ ids exDb7 ∧
      (∀ n : Nat, ∀ r ∈ recursive_memberships exDb7 n, r.root ≠ "ghost") :=
  ⟨by decide, (C7_amended_unknown_root_yields_empty exDb7 "ghost" (by decide)).1⟩

/-- `db` with the membership edges whose `member_of` side references no
stored identity removed. -/
def dropDangling (db : Db) : Db :=
  { identities := db.identities,
    memberships := db.memberships.filter (fun e => (ids db).contains e.member_of) }

lemma flatMap_filter_of_nil {α β : Type} (p : α → Bool) (f : α → List β)
    (h : ∀ a, p a = false → f a = []) :
    ∀ l : List α, (l.filter p).flatMap f = l.flatMap f := by
  intro l
  induction l with
  | nil => rfl
  | cons a l ih =>
    by_cases hp : p a
    · simp only [List.filter_cons, hp, if_pos, List.flatMap_cons, ih]
    · have hpa : p a = false := by simpa using hp
      simp only [List.filter_cons, hpa, Bool.false_eq_true, if_neg, not_false_iff,
        List.flatMap_cons, ih, h a hpa, List.nil_append]

lemma membershipsStep_dropDangling (db : Db) (prev : List MRow) :
    membershipsStep (dropDangling db) prev = membershipsStep db prev := by
  show (db.memberships.filter _).flatMap _ = db.memberships.flatMap _
  refine flatMap_filter_of_nil _ _ ?_ db.memberships
  intro e hpe
  have hmem : e.member_of ∉ ids db := by
    intro hmem
    rw [show (ids db).contains e.member_of = (ids db).elem e.member_of from rfl,
      List.elem_iff.mpr hmem] at hpe
    cases hpe
  have hfil : (db.identities.filter fun i => i.object_id == e.member_of) = [] := by
    rw [List.filter_eq_nil_iff]
    intro i hi
    simp only [beq_iff_eq]
    intro h
    exact hmem (List.mem_map.mpr ⟨i, hi, h⟩)
  show (prev.filter _).flatMap
      (fun r => ((dropDangling db).identities.filter fun i => i.object_id == e.member_of).map _) = []
  have : (dropDangling db).identities = db.identities := rfl
  rw [this, hfil]
  simp

/-- Claim C8: a membership edge whose `member_of` endpoint references no
stored identity is skipped by the `recursive_memberships` view — every
closure record's `object_id` is a stored identity (the dangling id never
appears), and deleting all dangling edges leaves every level of the view
unchanged; no error is possible (the view is a total function of the
database). -/
theorem C8_dangling_membership_edges_skipped (db : Db) :
    (∀ n : Nat, ∀ r ∈ recursive_memberships db n, r.object_id ∈ ids db) ∧
    (∀ n : Nat, recursive_memberships (dropDangling db) n = recursive_memberships db n) := by
  constructor
  · intro n r hr
    exact object_id_mem_ids_recursive_memberships hr
  · intro n
    induction n with
    | zero => rfl
    | succ n ih =>
      show membershipsStep (dropDangling db) (recursive_memberships (dropDangling db) n)
          = membershipsStep db (recursive_memberships db n)
      rw [ih, membershipsStep_dropDangling]

/-- Identity and database realizing the dangling-edge scenario: the only
edge is `U → "ghost"` with `"ghost"` absent from the identity store. -/
def idU : Identity :=
  { object_id := "U", object_type := "user", email := "u@x",
    firstname := "U", fullname := none }

def exDb8 : Db := { identities := [idU], memberships := [⟨"U", "ghost"⟩] }

theorem C8_dangling_membership_edges_skipped_witness :
    (identityRow idU).object_id ∈ ids exDb8 ∧
    recursive_memberships (dropDangling exDb8) 1 = recursive_memberships exDb8 1 ∧
    recursive_memberships exDb8 0 = [identityRow idU] ∧
    recursive_memberships exDb8 1 = [] :=
  ⟨(C8_dangling_membership_edges_skipped exDb8).1 0 (identityRow idU) (by decide),
    (C8_dangling_membership_edges_skipped exDb8).2 1, by decide, by decide⟩

/-- Code-point lexicographic comparison of character lists: the embedding
of string ordering used by the SQL engine for `ORDER BY` and `<=`. -/
def strLtL : List Char → List Char → Bool
  | [], [] => false
  | [], _ :: _ => true
  | _ :: _, [] => false
  | a :: as, b :: bs => a.toNat < b.toNat || (a == b && strLtL as bs)

/-- Strict code-point lexicographic order on strings. -/
def strLt (a b : String) : Bool := strLtL a.data b.data

/-- Reflexive code-point lexicographic order on strings. -/
def strLe (a b : String) : Bool := strLt a b || a == b

lemma charToNat_inj {a b : Char} (h : a.toNat = b.toNat) : a = b :=
  Char.eq_of_val_eq (UInt32.toNat.inj h)

lemma strLtL_irrefl : ∀ as : List Char, strLtL as as = false
  | [] => rfl
  | a :: as => by simp [strLtL, strLtL_irrefl as]

lemma strLtL_trans : ∀ as bs cs : List Char,
    strLtL as bs = true → strLtL bs cs = true → strLtL as cs = true
  | [], [], _, h1, _ => by cases h1
  | [], _ :: _, [], _, h2 => by cases h2
  | [], _ :: _, _ :: _, _, _ => rfl
  | _ :: _, [], _, h1, _ => by cases h1
  | _ :: _, _ :: _, [], _, h2 => by cases h2
  | a :: as, b :: bs, c :: cs, h1, h2 => by
    simp only [strLtL, Bool.or_eq_true, Bool.and_eq_true, beq_iff_eq,
      decide_eq_true_eq] at h1 h2 ⊢
    rcases h1 with h1 | ⟨rfl, h1⟩
    · rcases h2 with h2 | ⟨rfl, _⟩
      · exact Or.inl (Nat.lt_trans h1 h2)
      · exact Or.inl h1
    · rcases h2 with h2 | ⟨rfl, h2⟩
      · exact Or.inl h2
      · exact Or.inr ⟨rfl, strLtL_trans as bs cs h1 h2⟩

lemma strLtL_trichotomy : ∀ as bs : List Char,
    strLtL as bs = true ∨ as = bs ∨ strLtL bs as = true
  | [], [] => Or.inr (Or.inl rfl)
  | [], _ :: _ => Or.inl rfl
  | _ :: _, [] => Or.inr (Or.inr rfl)
  | a :: as, b :: bs => by
    rcases Nat.lt_trichotomy a.toNat b.toNat with h | h | h
    · exact Or.inl (by simp [strLtL, h])
    · have hab : a = b := charToNat_inj h
      subst hab
      rcases strLtL_trichotomy as bs with h' | h' | h'
      · exact Or.inl (by simp [strLtL, h'])
      · exact Or.inr (Or.inl (by rw [h']))
      · exact Or.inr (Or.inr (by simp [strLtL, h']))
    · exact Or.inr (Or.inr (by simp [strLtL, h]))

lemma string_eq_of_data_eq {a b : String} (h : a.data = b.data) : a = b := by
  cases a
  cases b
  cases h
  rfl

lemma strLt_trans {a b c : String} (h1 : strLt a b = true) (h2 : strLt b c = true) :
    strLt a c = true :=
  strLtL_trans a.data b.data c.data h1 h2

lemma strLt_irrefl (a : String) : strLt a a = false := strLtL_irrefl a.data

lemma strLt_trichotomy (a b : String) : strLt a b = true ∨ a = b ∨ strLt b a = true := by
  rcases strLtL_trichotomy a.data b.data with h | h | h
  · exact Or.inl h
  · exact Or.inr (Or.inl (string_eq_of_data_eq h))
  · exact Or.inr (Or.inr h)

lemma strLe_refl (a : String) : strLe a a = true := by simp [strLe]

lemma strLe_of_strLt {a b : String} (h : strLt a b = true) : strLe a b = true := by
  simp [strLe, h]

lemma strLe_iff {a b : String} : strLe a b = true ↔ strLt a b = true ∨ a = b := by
  simp [strLe, Bool.or_eq_true, beq_iff_eq]

lemma strLe_trans {a b c : String} (h1 : strLe a b = true) (h2 : strLe b c = true) :
    strLe a c = true := by
  rcases strLe_iff.mp h1 with h1 | rfl
  · rcases strLe_iff.mp h2 with h2 | rfl
    · exact strLe_of_strLt (strLt_trans h1 h2)
    · exact strLe_of_strLt h1
  · exact h2

lemma strLe_total (a b : String) : strLe a b = true ∨ strLe b a = true := by
  rcases strLt_trichotomy a b with h | rfl | h
  · exact Or.inl (strLe_of_strLt h)
  · exact Or.inl (strLe_refl a)
  · exact Or.inr (strLe_of_strLt h)

/-- A row of the `member_tree` recursive CTE inside `rbac_tree`:
`(object_id, email, display_name, object_type, depth, id_path, sort_path)`. -/
structure TRow where
  object_id : String
  email : String
  display_name : String
  object_type : String
  depth : Nat
  id_path : List String
  sort_path : String
  deriving DecidableEq

/-- `COALESCE(i.fullname, i.firstname)`. -/
def display (i : Identity) : String := i.fullname.getD i.firstname

/-- The base-case `WHERE` clause of `member_tree`: with a `root_email`,
`i.email = root_email`; without, `i.object_type = 'group'` and
`NOT EXISTS (SELECT 1 FROM membership m WHERE m.subject = i.object_id)`. -/
def treeBaseCond (db : Db) (root_email : Option String) (i : Identity) : Bool :=
  match root_email with
  | some em => i.email == em
  | none =>
      i.object_type == "group" && !(db.memberships.any fun m => m.subject == i.object_id)

/-- A depth-0 row of `member_tree`: `id_path = ARRAY[i.object_id]`,
`sort_path = i.email`. -/
def treeBaseRow (i : Identity) : TRow :=
  { object_id := i.object_id, email := i.email, display_name := display i,
    object_type := i.object_type, depth := 0, id_path := [i.object_id],
    sort_path := i.email }

/-- The base case of the `member_tree` CTE. -/
def member_tree_base (db : Db) (root_email : Option String) : List TRow :=
  db.identities.filterMap fun i =>
    if treeBaseCond db root_email i then some (treeBaseRow i) else none

/-- The recursive `SELECT` of `member_tree`: child of `mt` through
identity `i`, appending to `id_path` and to the email `sort_path`. -/
def treeChildRow (mt : TRow) (i : Identity) : TRow :=
  { object_id := i.object_id, email := i.email, display_name := display i,
    object_type := i.object_type, depth := mt.depth + 1,
    id_path := mt.id_path ++ [i.object_id],
    sort_path := mt.sort_path ++ "|" ++ i.email }

/-- One unfolding of the recursive term of `member_tree`:
`FROM identity i JOIN membership m ON i.object_id = m.subject
JOIN member_tree mt ON m.member_of = mt.object_id
WHERE NOT (i.object_id = ANY(mt.id_path))`. -/
def treeStep (db : Db) (prev : List TRow) : List TRow :=
  db.identities.flatMap fun i =>
    (db.memberships.filter fun m => i.object_id == m.subject).flatMap fun m =>
      (prev.filter fun mt =>
          m.member_of == mt.object_id && !(mt.id_path.contains i.object_id)).map
        fun mt => treeChildRow mt i

/-- The rows of the `member_tree` CTE produced at recursion depth `n`. -/
def member_tree (db : Db) (root_email : Option String) : Nat → List TRow
  | 0 => member_tree_base db root_email
  | n + 1 => treeStep db (member_tree db root_email n)

/-- All rows of the `member_tree` CTE (the recursion provably exhausts
before depth `db.identities.length`, see `member_tree_empty`). -/
def member_tree_rows (db : Db) (root_email : Option String) : List TRow :=
  (List.range db.identities.length).flatMap (member_tree db root_email)

/-- The `ORDER BY sort_path, member_tree.object_type DESC, display_name`
comparison of `rbac_tree`. -/
def treeRowLe (a b : TRow) : Bool :=
  strLt a.sort_path b.sort_path ||
    (a.sort_path == b.sort_path &&
      (strLt b.object_type a.object_type ||
        (a.object_type == b.object_type && strLe a.display_name b.display_name)))

/-- The rows of `rbac_tree` in output order (before the final projection). -/
def rbac_tree_sorted (db : Db) (root_email : Option String) : List TRow :=
  List.insertionSort (fun a b => treeRowLe a b = true) (member_tree_rows db root_email)

/-- The `rbac_tree(root_email)` result set:
`REPEAT('^', depth) || ' ' || display_name`, `object_type`, `email`,
ordered by `sort_path, object_type DESC, display_name`. -/
def rbac_tree (db : Db) (root_email : Option String) : List (String × String × String) :=
  (rbac_tree_sorted db root_email).map fun r =>
    (String.mk (List.replicate r.depth '^') ++ " " ++ r.display_name,
      r.object_type, r.email)

lemma treeRowLe_total (a b : TRow) : treeRowLe a b = true ∨ treeRowLe b a = true := by
  unfold treeRowLe
  rcases strLt_trichotomy a.sort_path b.sort_path with h | hsp | h
  · exact Or.inl (by simp [h])
  · rcases strLt_trichotomy a.object_type b.object_type with h' | hot | h'
    · exact Or.inr (by simp [hsp, h'])
    · rcases strLe_total a.display_name b.display_name with h'' | h''
      · exact Or.inl (by simp [hsp, hot, h''])
      · exact Or.inr (by simp [hsp, hot, h''])
    · exact Or.inl (by simp [hsp, h'])
  · exact Or.inr (by simp [h])

lemma treeRowLe_iff {a b : TRow} : treeRowLe a b = true ↔
    strLt a.sort_path b.sort_path = true ∨ (a.sort_path = b.sort_path ∧
      (strLt b.object_type a.object_type = true ∨ (a.object_type = b.object_type ∧
        strLe a.display_name b.display_name = true))) := by
  simp [treeRowLe, Bool.or_eq_true, Bool.and_eq_true, beq_iff_eq]

lemma treeRowLe_trans {a b c : TRow} (h1 : treeRowLe a b = true)
    (h2 : treeRowLe b c = true) : treeRowLe a c = true := by
  rw [treeRowLe_iff] at h1 h2 ⊢
  rcases h1 with h1 | ⟨e1, h1'⟩
  · rcases h2 with h2 | ⟨e2, _⟩
    · exact Or.inl (strLt_trans h1 h2)
    · rw [← e2]
      exact Or.inl h1
  · rcases h2 with h2 | ⟨e2, h2'⟩
    · rw [e1]
      exact Or.inl h2
    · refine Or.inr ⟨e1.trans e2, ?_⟩
      rcases h1' with h1' | ⟨f1, h1''⟩
      · rcases h2' with h2' | ⟨f2, _⟩
        · exact Or.inl (strLt_trans h2' h1')
        · rw [← f2]
          exact Or.inl h1'
      · rcases h2' with h2' | ⟨f2, h2''⟩
        · rw [f1]
          exact Or.inl h2'
        · exact Or.inr ⟨f1.trans f2, strLe_trans h1'' h2''⟩

lemma contains_eq_true_iff {a : String} {l : List String} : l.contains a = true ↔ a ∈ l := by
  rw [show l.contains a = l.elem a from rfl]
  exact List.elem_iff

lemma contains_eq_false_iff {a : String} {l : List String} : l.contains a = false ↔ a ∉ l := by
  constructor
  · intro h hm
    rw [contains_eq_true_iff.mpr hm] at h
    cases h
  · intro h
    cases hc : l.contains a
    · rfl
    · exact absurd (contains_eq_true_iff.mp hc) h

lemma mem_treeStep {db : Db} {prev : List TRow} {r : TRow} :
    r ∈ treeStep db prev ↔
      ∃ i ∈ db.identities, ∃ m ∈ db.memberships, i.object_id = m.subject ∧
        ∃ mt ∈ prev, m.member_of = mt.object_id ∧ i.object_id ∉ mt.id_path ∧
          r = treeChildRow mt i := by
  constructor
  · intro h
    simp only [treeStep, List.mem_flatMap, List.mem_filter, List.mem_map,
      Bool.and_eq_true, Bool.not_eq_true', beq_iff_eq] at h
    obtain ⟨i, hi, m, ⟨hm, hsub⟩, mt, ⟨hmt, hmo, hpath⟩, hr⟩ := h
    exact ⟨i, hi, m, hm, hsub, mt, hmt, hmo, contains_eq_false_iff.mp hpath, hr.symm⟩
  · rintro ⟨i, hi, m, hm, hsub, mt, hmt, hmo, hpath, rfl⟩
    simp only [treeStep, List.mem_flatMap, List.mem_filter, List.mem_map,
      Bool.and_eq_true, Bool.not_eq_true', beq_iff_eq]
    exact ⟨i, hi, m, ⟨hm, hsub⟩, mt, ⟨hmt, hmo, contains_eq_false_iff.mpr hpath⟩, rfl⟩

lemma mem_member_tree_base {db : Db} {re : Option String} {r : TRow} :
    r ∈ member_tree_base db re ↔
      ∃ i ∈ db.identities, treeBaseCond db re i = true ∧ r = treeBaseRow i := by
  simp only [member_tree_base, List.mem_filterMap]
  constructor
  · rintro ⟨i, hi, hr⟩
    cases hc : treeBaseCond db re i
    · rw [hc] at hr
      simp at hr
    · rw [hc] at hr
      simp at hr
      exact ⟨i, hi, hc, hr.symm⟩
  · rintro ⟨i, hi, hc, rfl⟩
    exact ⟨i, hi, by rw [hc]; simp⟩

lemma member_tree_path_spec {db : Db} {re : Option String} :
    ∀ {n : Nat} {r : TRow}, r ∈ member_tree db re n →
      r.id_path.length = n + 1 ∧ r.id_path.Nodup ∧ (∀ x ∈ r.id_path, x ∈ ids db) := by
  intro n
  induction n with
  | zero =>
    intro r hr
    obtain ⟨i, hi, _, rfl⟩ := mem_member_tree_base.mp hr
    refine ⟨rfl, List.nodup_singleton _, ?_⟩
    intro x hx
    simp only [treeBaseRow, List.mem_singleton] at hx
    exact hx ▸ List.mem_map.mpr ⟨i, hi, rfl⟩
  | succ n ih =>
    intro r hr
    obtain ⟨i, hi, m, hm, hsub, mt, hmt, hmo, hpath, rfl⟩ :=
      mem_treeStep.mp (by simpa [member_tree] using hr)
    obtain ⟨hlen, hnd, hin⟩ := ih hmt
    refine ⟨?_, ?_, ?_⟩
    · simp [treeChildRow, hlen]
    · simp [treeChildRow, List.nodup_append, hnd, hpath]
    · intro x hx
      simp only [treeChildRow] at hx
      rcases List.mem_append.mp hx with hx | hx
      · exact hin x hx
      · rw [List.mem_singleton] at hx
        exact hx ▸ List.mem_map.mpr ⟨i, hi, rfl⟩

lemma nodup_length_le {l s : List String} (hn : l.Nodup) (hs : ∀ x ∈ l, x ∈ s) :
    l.length ≤ s.length := by
  have h1 : l.toFinset.card = l.length := List.toFinset_card_of_nodup hn
  have h2 : l.toFinset ⊆ s.toFinset := by
    intro x hx
    rw [List.mem_toFinset] at hx ⊢
    exact hs x hx
  calc l.length = l.toFinset.card := h1.symm
    _ ≤ s.toFinset.card := Finset.card_le_card h2
    _ ≤ s.length := List.toFinset_card_le s

lemma member_tree_empty {db : Db} {re : Option String} {n : Nat}
    (h : db.identities.length ≤ n) : member_tree db re n = [] := by
  rw [List.eq_nil_iff_forall_not_mem]
  intro r hr
  obtain ⟨hlen, hnd, hsub⟩ := member_tree_path_spec hr
  have hle := nodup_length_le hnd hsub
  rw [hlen] at hle
  have hids : (ids db).length = db.identities.length := List.length_map _ _
  omega

/-- Join a list of path components with the `'|'` separator (the shape of
`member_tree.sort_path`). -/
def emailPath : List String → String
  | [] => ""
  | e :: rest => rest.foldl (fun acc x => acc ++ "|" ++ x) e

lemma emailPath_append (l : List String) (x : String) (h : l ≠ []) :
    emailPath (l ++ [x]) = emailPath l ++ "|" ++ x := by
  cases l with
  | nil => cases h rfl
  | cons e rest =>
    show (rest ++ [x]).foldl _ e = _
    rw [List.foldl_append]
    rfl

lemma member_tree_sort_path_spec {db : Db} {re : Option String} :
    ∀ {n : Nat} {r : TRow}, r ∈ member_tree db re n →
      ∃ is : List Identity, is ≠ [] ∧ (∀ i ∈ is, i ∈ db.identities) ∧
        r.id_path = is.map (fun i => i.object_id) ∧
        r.sort_path = emailPath (is.map (fun i => i.email)) := by
  intro n
  induction n with
  | zero =>
    intro r hr
    obtain ⟨i, hi, _, rfl⟩ := mem_member_tree_base.mp hr
    exact ⟨[i], by simp, by simp [hi], rfl, rfl⟩
  | succ n ih =>
    intro r hr
    obtain ⟨i, hi, m, hm, hsub, mt, hmt, hmo, hpath, rfl⟩ :=
      mem_treeStep.mp (by simpa [member_tree] using hr)
    obtain ⟨is0, hne, hall, hidp, hsp⟩ := ih hmt
    have hmapne : is0.map (fun i => i.email) ≠ [] := by
      simpa using hne
    refine ⟨is0 ++ [i], by simp, ?_, ?_, ?_⟩
    · intro j hj
      rcases List.mem_append.mp hj with hj | hj
      · exact hall j hj
      · rw [List.mem_singleton] at hj
        exact hj ▸ hi
    · simp [treeChildRow, hidp]
    · simp only [treeChildRow, List.map_append, List.map_cons, List.map_nil]
      rw [emailPath_append _ _ hmapne, hsp]

/-- The display-name composite path that Claim C4 asserts to be the
primary sort key: each node on `id_path`, resolved in the identity store,
mapped to `COALESCE(fullname, firstname)` and joined with the separator. -/
def displayPath (db : Db) (r : TRow) : String :=
  emailPath (r.id_path.filterMap fun x =>
    (db.identities.find? fun i => i.object_id == x).map display)

/-- The ordering Claim C4 asserts for `rbac_tree` rows: display-name path,
then `object_type` descending, then display name. -/
def claimLe (db : Db) (a b : TRow) : Bool :=
  strLt (displayPath db a) (displayPath db b) ||
    (displayPath db a == displayPath db b &&
      (strLt b.object_type a.object_type ||
        (a.object_type == b.object_type && strLe a.display_name b.display_name)))

/-- One top-level group `G` with two user members whose email order
(`a@x` before `b@x`) is opposite to their display-name order
(`Zed` after `Ann`). -/
def idG4 : Identity :=
  { object_id := "G", object_type := "group", email := "g@x",
    firstname := "G", fullname := none }

def idZed : Identity :=
  { object_id := "u1", object_type := "user", email := "a@x",
    firstname := "Zed", fullname := none }

def idAnn : Identity :=
  { object_id := "u2", object_type := "user", email := "b@x",
    firstname := "Ann", fullname := none }

def exDb4 : Db :=
  { identities := [idG4, idZed, idAnn],
    memberships := [⟨"u1", "G"⟩, ⟨"u2", "G"⟩] }

/-- Claim C4 counterexample: `rbac_tree`'s `sort_path` is built from
EMAILS (`i.email`, then `sort_path || '|' || i.email`), not from display
names.  In `exDb4` the produced order is `G, Zed, Ann` (email paths
`g@x < g@x|a@x < g@x|b@x`), which violates the display-name-path ordering
the claim asserts (that would require `Ann` before `Zed`). -/
theorem C4_counterexample :
    (rbac_tree_sorted exDb4 none).map (fun r => r.display_name) = ["G", "Zed", "Ann"] ∧
    ¬ List.Pairwise (fun a b => claimLe exDb4 a b = true) (rbac_tree_sorted exDb4 none) := by
  constructor
  · decide
  · decide

/-- Claim C4, amended: the rows of `rbac_tree` are ordered by
`(sort_path, object_type descending, display_name)` where `sort_path` is
the composite path of EMAILS along the path from the root (base case
`i.email`, recursive case `sort_path || '|' || i.email`), not of display
names. -/
theorem C4_amended_primary_key_is_email_path (db : Db) (re : Option String) :
    List.Pairwise (fun a b => treeRowLe a b = true) (rbac_tree_sorted db re) ∧
    ∀ r ∈ member_tree_rows db re, ∃ is : List Identity, is ≠ [] ∧
      (∀ i ∈ is, i ∈ db.identities) ∧ r.id_path = is.map (fun i => i.object_id) ∧
      r.sort_path = emailPath (is.map (fun i => i.email)) := by
  constructor
  · haveI hT : IsTotal TRow (fun a b => treeRowLe a b = true) := ⟨treeRowLe_total⟩
    haveI hTr : IsTrans TRow (fun a b => treeRowLe a b = true) :=
      ⟨fun _ _ _ h1 h2 => treeRowLe_trans h1 h2⟩
    exact List.sorted_insertionSort _ _
  · intro r hr
    obtain ⟨n, _, hn⟩ := List.mem_flatMap.mp hr
    exact member_tree_sort_path_spec hn

theorem C4_amended_primary_key_is_email_path_witness :
    treeBaseRow idG4 ∈ member_tree_rows exDb4 none ∧
    (∃ is : List Identity, is ≠ [] ∧ (∀ i ∈ is, i ∈ exDb4.identities) ∧
      (treeBaseRow idG4).id_path = is.map (fun i => i.object_id) ∧
      (treeBaseRow idG4).sort_path = emailPath (is.map (fun i => i.email))) :=
  ⟨by decide,
    (C4_amended_primary_key_is_email_path exDb4 none).2 (treeBaseRow idG4) (by decide)⟩

/-- Claim C5: within `rbac_tree`'s traversal, a child row at depth `n+1`
exists exactly when some parent row at depth `n`, a membership edge, and a
stored identity produce it AND the child is not already on the parent's
`id_path` (path-local cycle avoidance — a node reachable through distinct
branches yields one row per distinct path, while re-entering one's own
ancestor path is excluded); every row's path is duplicate-free; and the
recursion exhausts after at most `|identity|` levels on every finite
database, cyclic ones included. -/
theorem C5_path_local_cycle_avoidance (db : Db) (re : Option String) :
    (∀ n : Nat, ∀ r ∈ member_tree db re n, r.id_path.Nodup) ∧
    (∀ (n : Nat) (r : TRow), r ∈ member_tree db re (n + 1) ↔
      ∃ i ∈ db.identities, ∃ m ∈ db.memberships, i.object_id = m.subject ∧
        ∃ mt ∈ member_tree db re n, m.member_of = mt.object_id ∧
          i.object_id ∉ mt.id_path ∧ r = treeChildRow mt i) ∧
    (∀ n : Nat, db.identities.length ≤ n → member_tree db re n = []) := by
  refine ⟨?_, ?_, ?_⟩
  · intro n r hr
    exact (member_tree_path_spec hr).2.1
  · intro n r
    show r ∈ treeStep db (member_tree db re n) ↔ _
    exact mem_treeStep
  · intro n h
    exact member_tree_empty h

/-- Diamond database: top-level group `G`, groups `H1`, `H2` in `G`, user
`u` in both `H1` and `H2` — two distinct non-cyclic paths to `u`. -/
def idG5 : Identity :=
  { object_id := "G", object_type := "group", email := "g@x",
    firstname := "G", fullname := none }

def idH1 : Identity :=
  { object_id := "H1", object_type := "group", email := "h1@x",
    firstname := "H1", fullname := none }

def idH2 : Identity :=
  { object_id := "H2", object_type := "group", email := "h2@x",
    firstname := "H2", fullname := none }

def idu : Identity :=
  { object_id := "u", object_type := "user", email := "u@x",
    firstname := "u", fullname := none }

def dbD : Db :=
  { identities := [idG5, idH1, idH2, idu],
    memberships := [⟨"H1", "G"⟩, ⟨"H2", "G"⟩, ⟨"u", "H1"⟩, ⟨"u", "H2"⟩] }

/-- Cyclic database: `G` and `H` mutually members, rooted by email. -/
def idH : Identity :=
  { object_id := "H", object_type := "group", email := "h@x",
    firstname := "H", fullname := none }

def dbC : Db :=
  { identities := [idG5, idH],
    memberships := [⟨"G", "H"⟩, ⟨"H", "G"⟩] }

theorem C5_path_local_cycle_avoidance_witness :
    member_tree dbD none dbD.identities.length = [] ∧
    ((member_tree_rows dbD none).filter (fun r => r.object_id == "u")).length = 2 ∧
    ((member_tree_rows dbD none).filter (fun r => r.object_id == "u")).map
      (fun r => r.id_path) = [["G", "H1", "u"], ["G", "H2", "u"]] ∧
    member_tree dbC (some "g@x") 2 = [] ∧
    (member_tree_rows dbC (some "g@x")).map (fun r => r.id_path) = [["G"], ["G", "H"]] :=
  ⟨(C5_path_local_cycle_avoidance dbD none).2.2 dbD.identities.length (le_refl _),
    by decide, by decide, by decide, by decide⟩

/-- Claim C6: invoked without a root, the depth-0 rows of `rbac_tree` are
exactly the identities whose `object_type` is `'group'` and that are not
the `subject` of any membership edge (groups that are not themselves a
member of anything). -/
theorem C6_rootless_roots_are_top_level_groups (db : Db) (r : TRow) :
    r ∈ member_tree db none 0 ↔
      ∃ i ∈ db.identities, i.object_type = "group" ∧
        (∀ m ∈ db.memberships, m.subject ≠ i.object_id) ∧ r = treeBaseRow i := by
  rw [show member_tree db none 0 = member_tree_base db none from rfl,
    mem_member_tree_base]
  constructor
  · rintro ⟨i, hi, hc, rfl⟩
    simp only [treeBaseCond, Bool.and_eq_true, Bool.not_eq_true', beq_iff_eq] at hc
    obtain ⟨htype, hany⟩ := hc
    refine ⟨i, hi, htype, ?_, rfl⟩
    intro m hm heq
    have : db.memberships.any (fun m => m.subject == i.object_id) = true :=
      List.any_eq_true.mpr ⟨m, hm, by simp [heq]⟩
    rw [this] at hany
    cases hany
  · rintro ⟨i, hi, htype, hsub, rfl⟩
    refine ⟨i, hi, ?_, rfl⟩
    simp only [treeBaseCond, Bool.and_eq_true, Bool.not_eq_true', beq_iff_eq]
    refine ⟨htype, ?_⟩
    cases hany : db.memberships.any (fun m => m.subject == i.object_id)
    · rfl
    · obtain ⟨m, hm, hme⟩ := List.any_eq_true.mp hany
      rw [beq_iff_eq] at hme
      exact absurd hme (hsub m hm)

/-- Claim C10: invoked with an explicit root, the depth-0 rows of
`rbac_tree` are exactly the identities whose EMAIL equals the argument —
each such identity becomes a depth-0 root (`treeBaseRow` fixes depth 0),
with no condition on its `object_type` or on membership edges it appears
in, and a non-unique email yields one root row per matching identity. -/
theorem C10_explicit_root_selected_by_email (db : Db) (em : String) (r : TRow) :
    r ∈ member_tree db (some em) 0 ↔
      ∃ i ∈ db.identities, i.email = em ∧ r = treeBaseRow i := by
  rw [show member_tree db (some em) 0 = member_tree_base db (some em) from rfl,
    mem_member_tree_base]
  constructor
  · rintro ⟨i, hi, hc, rfl⟩
    simp only [treeBaseCond, beq_iff_eq] at hc
    exact ⟨i, hi, hc, rfl⟩
  · rintro ⟨i, hi, hem, rfl⟩
    exact ⟨i, hi, by simp [treeBaseCond, hem], rfl⟩

/-- `permission.starts` default installed by
`rbac_add_default_permission_starts_ends_20251125_001`. -/
def farPast : String := "2000-01-01 00:00:00"

/-- `permission.ends` default installed by the same migration. -/
def farFuture : String := "3000-01-01 00:00:00"

/-- An `INSERT` into `permission` whose window bounds may be omitted. -/
structure PermissionInput where
  privilege : String
  identity_object_id : String
  target_object_id : String
  starts : Option String
  ends : Option String
  deriving DecidableEq

/-- The row stored for an insert after the defaults migration: omitted
bounds receive the sentinel defaults (`SET DEFAULT` / `SET NOT NULL`);
explicit bounds are stored as given — the schema carries no
`starts <= ends` check constraint. -/
def insertPermission (p : PermissionInput) : Permission :=
  { privilege := p.privilege, identity_object_id := p.identity_object_id,
    target_object_id := p.target_object_id,
    starts := p.starts.getD farPast, ends := p.ends.getD farFuture }

/-- Claim C9 counterexample: the schema enforces NOT NULL and the default
sentinels but nothing enforces `starts <= ends`: an insert with an
explicit reversed window is accepted and stores a permission row whose
`starts` exceeds its `ends`. -/
theorem C9_counterexample :
    strLe (insertPermission ⟨"read", "g", "doc", some farFuture, some farPast⟩).starts
      (insertPermission ⟨"read", "g", "doc", some farFuture, some farPast⟩).ends
      = false := by
  decide

/-- Claim C9, amended: every stored permission row has both bounds
populated; a grant created without an explicit window receives the
far-past sentinel `2000-01-01 00:00:00` for `starts` and the far-future
sentinel `3000-01-01 00:00:00` for `ends` (and that default window is
well ordered); but `starts <= ends` is NOT enforced for explicit
windows. -/
theorem C9_amended_defaults_not_ordering (p : PermissionInput) :
    (insertPermission p).starts = p.starts.getD farPast ∧
    (insertPermission p).ends = p.ends.getD farFuture ∧
    (p.starts = none → p.ends = none →
      strLe (insertPermission p).starts (insertPermission p).ends = true) := by
  refine ⟨rfl, rfl, ?_⟩
  intro h1 h2
  rw [show (insertPermission p).starts = p.starts.getD farPast from rfl, h1,
    show (insertPermission p).ends = p.ends.getD farFuture from rfl, h2]
  decide

theorem C9_amended_defaults_not_ordering_witness :
    (insertPermission ⟨"read", "g", "doc", none, none⟩).starts = farPast ∧
    (insertPermission ⟨"read", "g", "doc", none, none⟩).ends = farFuture ∧
    strLe (insertPermission ⟨"read", "g", "doc", none, none⟩).starts
      (insertPermission ⟨"read", "g", "doc", none, none⟩).ends = true := by
  obtain ⟨h1, h2, h3⟩ := C9_amended_defaults_not_ordering ⟨"read", "g", "doc", none, none⟩
  exact ⟨h1, h2, h3 rfl rfl⟩

/-- Membership of a pair `(x, y)` in the `recursive_memberships` view:
some level of the view holds a row with root `x` and object `y`. -/
def viewAncestor (db : Db) (x y : String) : Prop :=
  ∃ n : Nat, ∃ r ∈ recursive_memberships db n, r.root = x ∧ r.object_id = y

/-- Modelled from the spec: one expansion round of the breadth-first
fixpoint of spec §4.2 — every membership edge leaving an already-visited
node adds its (stored, not yet visited) `member_of` endpoint; dangling
edges are skipped (§4.2 edge case). -/
def freshNodes (db : Db) (visited : List String) : List String :=
  (db.memberships.filterMap fun e =>
    if visited.contains e.subject && !(visited.contains e.member_of)
        && (ids db).contains e.member_of
    then some e.member_of else none).dedup

/-- Modelled from the spec: the visited set after one more round. -/
def closureStep (db : Db) (visited : List String) : List String :=
  visited ++ freshNodes db visited

/-- Modelled from the spec: the initial visited set `{root}` — empty when
the root is not a stored identity, matching the view's base case. -/
def ancestorSeed (db : Db) (root : String) : List String :=
  if (ids db).contains root then [root] else []

/-- `k` rounds of expansion. -/
def iterStep (db : Db) : Nat → List String → List String
  | 0, v => v
  | n + 1, v => closureStep db (iterStep db n v)

/-- Modelled from the spec: the ancestor-closure membership set of §4.2 —
the visited set of the breadth-first fixpoint, run to saturation (at most
`|identity| + 1` rounds suffice, see `ancestorSet_fixpoint`). -/
def ancestorSet (db : Db) (root : String) : List String :=
  iterStep db (db.identities.length + 1) (ancestorSeed db root)

lemma mem_freshNodes {db : Db} {v : List String} {x : String} :
    x ∈ freshNodes db v ↔ ∃ e ∈ db.memberships, e.subject ∈ v ∧ e.member_of ∉ v ∧
      e.member_of ∈ ids db ∧ e.member_of = x := by
  simp only [freshNodes, List.mem_dedup, List.mem_filterMap]
  constructor
  · rintro ⟨e, he, hee⟩
    cases hc : (v.contains e.subject && !(v.contains e.member_of)
        && (ids db).contains e.member_of)
    · rw [hc] at hee
      simp at hee
    · rw [hc] at hee
      simp at hee
      simp only [Bool.and_eq_true, Bool.not_eq_true'] at hc
      obtain ⟨⟨h1, h2⟩, h3⟩ := hc
      exact ⟨e, he, contains_eq_true_iff.mp h1, contains_eq_false_iff.mp h2,
        contains_eq_true_iff.mp h3, hee⟩
  · rintro ⟨e, he, h1, h2, h3, rfl⟩
    refine ⟨e, he, ?_⟩
    rw [contains_eq_true_iff.mpr h1, contains_eq_false_iff.mpr h2,
      contains_eq_true_iff.mpr h3]
    simp

lemma mem_closureStep {db : Db} {v : List String} {x : String} :
    x ∈ closureStep db v ↔ x ∈ v ∨ x ∈ freshNodes db v := by
  rw [closureStep]
  exact List.mem_append

lemma closureStep_nodup {db : Db} {v : List String} (hv : v.Nodup) :
    (closureStep db v).Nodup := by
  rw [closureStep, List.nodup_append]
  refine ⟨hv, List.nodup_dedup _, ?_⟩
  intro x hxv hxf
  obtain ⟨e, _, _, h2, _, rfl⟩ := mem_freshNodes.mp hxf
  exact h2 hxv

lemma closureStep_subset_ids {db : Db} {v : List String}
    (hv : ∀ x ∈ v, x ∈ ids db) : ∀ x ∈ closureStep db v, x ∈ ids db := by
  intro x hx
  rcases mem_closureStep.mp hx with hx | hx
  · exact hv x hx
  · obtain ⟨e, _, _, _, h3, rfl⟩ := mem_freshNodes.mp hx
    exact h3

lemma closureStep_fixpoint_of_closed {db : Db} {v : List String}
    (h : ∀ e ∈ db.memberships, e.subject ∈ v → e.member_of ∈ ids db →
      e.member_of ∈ v) :
    closureStep db v = v := by
  rw [closureStep]
  have hf : freshNodes db v = [] := by
    rw [List.eq_nil_iff_forall_not_mem]
    intro x hx
    obtain ⟨e, he, h1, h2, h3, rfl⟩ := mem_freshNodes.mp hx
    exact h2 (h e he h1 h3)
  rw [hf, List.append_nil]

lemma closed_of_closureStep_eq {db : Db} {v : List String}
    (hfix : closureStep db v = v) :
    ∀ e ∈ db.memberships, e.subject ∈ v → e.member_of ∈ ids db →
      e.member_of ∈ v := by
  intro e he h1 h3
  by_cases h2 : e.member_of ∈ v
  · exact h2
  · have hx : e.member_of ∈ freshNodes db v := mem_freshNodes.mpr ⟨e, he, h1, h2, h3, rfl⟩
    have hm : e.member_of ∈ closureStep db v := mem_closureStep.mpr (Or.inr hx)
    rw [hfix] at hm
    exact hm

lemma closureStep_ne_imp_lt {db : Db} {v : List String}
    (h : closureStep db v ≠ v) : v.length < (closureStep db v).length := by
  rw [closureStep, List.length_append]
  cases hf : freshNodes db v with
  | nil => exact absurd (by rw [closureStep, hf, List.append_nil]) h
  | cons a l =>
    simp only [List.length_cons]
    omega

lemma mem_iterStep_of_mem {db : Db} {v : List String} {x : String} (h : x ∈ v) :
    ∀ n : Nat, x ∈ iterStep db n v
  | 0 => h
  | n + 1 => mem_closureStep.mpr (Or.inl (mem_iterStep_of_mem h n))

lemma iterStep_nodup {db : Db} {v : List String} (h : v.Nodup) :
    ∀ n : Nat, (iterStep db n v).Nodup
  | 0 => h
  | n + 1 => closureStep_nodup (iterStep_nodup h n)

lemma iterStep_subset_ids {db : Db} {v : List String}
    (h : ∀ x ∈ v, x ∈ ids db) :
    ∀ n : Nat, ∀ x ∈ iterStep db n v, x ∈ ids db
  | 0 => h
  | n + 1 => closureStep_subset_ids (iterStep_subset_ids h n)

lemma exists_iter_fixpoint (db : Db) (v : List String) (hnd : v.Nodup)
    (hsub : ∀ x ∈ v, x ∈ ids db) :
    ∃ k ≤ db.identities.length + 1,
      closureStep db (iterStep db k v) = iterStep db k v := by
  by_contra hcon
  push_neg at hcon
  have hgrow : ∀ k, k ≤ db.identities.length + 1 → k ≤ (iterStep db k v).length := by
    intro k
    induction k with
    | zero => intro _; omega
    | succ k ih =>
      intro hk
      have hk' : k ≤ db.identities.length + 1 := by omega
      have h1 := ih hk'
      have h2 : (iterStep db k v).length < (closureStep db (iterStep db k v)).length :=
        closureStep_ne_imp_lt (hcon k hk')
      show k + 1 ≤ (closureStep db (iterStep db k v)).length
      omega
  have hN := hgrow (db.identities.length + 1) (le_refl _)
  have hle := nodup_length_le (iterStep_nodup hnd (db.identities.length + 1))
    (iterStep_subset_ids hsub (db.identities.length + 1))
  have hids : (ids db).length = db.identities.length := List.length_map _ _
  omega

lemma iter_fixpoint_stable (db : Db) {v : List String} {k : Nat}
    (h : closureStep db (iterStep db k v) = iterStep db k v) :
    ∀ d : Nat, iterStep db (d + k) v = iterStep db k v := by
  intro d
  induction d with
  | zero => rw [Nat.zero_add]
  | succ d ih =>
    rw [show d + 1 + k = (d + k) + 1 from by omega]
    show closureStep db (iterStep db (d + k) v) = _
    rw [ih]
    exact h

lemma ancestorSeed_nodup (db : Db) (root : String) : (ancestorSeed db root).Nodup := by
  unfold ancestorSeed
  split
  · exact List.nodup_singleton _
  · exact List.nodup_nil

lemma ancestorSeed_subset_ids (db : Db) (root : String) :
    ∀ x ∈ ancestorSeed db root, x ∈ ids db := by
  intro x hx
  unfold ancestorSeed at hx
  cases hc : (ids db).contains root
  · rw [hc] at hx
    simp at hx
  · rw [hc] at hx
    simp at hx
    subst hx
    exact contains_eq_true_iff.mp hc

lemma ancestorSet_fixpoint (db : Db) (root : String) :
    closureStep db (ancestorSet db root) = ancestorSet db root := by
  obtain ⟨k, hk, hfix⟩ := exists_iter_fixpoint db (ancestorSeed db root)
    (ancestorSeed_nodup db root) (ancestorSeed_subset_ids db root)
  have hstable := iter_fixpoint_stable db hfix (db.identities.length + 1 - k)
  have heq : (db.identities.length + 1 - k) + k = db.identities.length + 1 := by omega
  rw [heq] at hstable
  show closureStep db (iterStep db (db.identities.length + 1) (ancestorSeed db root))
      = iterStep db (db.identities.length + 1) (ancestorSeed db root)
  rw [hstable]
  exact hfix

lemma iterStep_sound {db : Db} {root : String} :
    ∀ (k : Nat) (y : String), y ∈ iterStep db k (ancestorSeed db root) →
      ∃ n : Nat, MWalk db root y n := by
  intro k
  induction k with
  | zero =>
    intro y hy
    show ∃ n : Nat, MWalk db root y n
    unfold iterStep ancestorSeed at hy
    cases hc : (ids db).contains root
    · rw [hc] at hy
      simp at hy
    · rw [hc] at hy
      simp at hy
      subst hy
      exact ⟨0, MWalk.base _ (contains_eq_true_iff.mp hc)⟩
  | succ k ih =>
    intro y hy
    rcases mem_closureStep.mp hy with hy | hy
    · exact ih y hy
    · obtain ⟨e, he, h1, _, h3, rfl⟩ := mem_freshNodes.mp hy
      obtain ⟨n, hw⟩ := ih e.subject h1
      exact ⟨n + 1, MWalk.step e hw he rfl rfl h3⟩

lemma ancestorSet_complete {db : Db} {root y : String} {n : Nat}
    (w : MWalk db root y n) : y ∈ ancestorSet db root := by
  induction w with
  | base hx =>
    have hseed : root ∈ ancestorSeed db root := by
      unfold ancestorSeed
      rw [contains_eq_true_iff.mpr hx]
      simp
    exact mem_iterStep_of_mem hseed _
  | step e _ he hs hm hz ih =>
    have h1 : e.subject ∈ ancestorSet db root := by
      rw [hs]
      exact ih
    have h3 : e.member_of ∈ ids db := by
      rw [hm]
      exact hz
    have hclosed := closed_of_closureStep_eq (ancestorSet_fixpoint db root)
    have := hclosed e he h1 h3
    rw [hm] at this
    exact this

lemma ancestorSet_iff_viewAncestor (db : Db) (x y : String) :
    y ∈ ancestorSet db x ↔ viewAncestor db x y := by
  constructor
  · intro h
    obtain ⟨n, hw⟩ := iterStep_sound _ y h
    exact ⟨n, row_of_walk hw⟩
  · rintro ⟨n, r, hr, rfl, rfl⟩
    exact ancestorSet_complete (walk_of_row hr)

/-- Modelled from the spec: the permission resolver (`HasPermission`,
spec §4.4) is not part of the migrations source — only the `permission`
table and the `recursive_memberships` view are.  Following the spec's
words, it scans the grant records for one whose `privilege` and target
match, whose grantee `identity_object_id` lies in the ancestor closure of
the subject (computed as the visited set of the spec's breadth-first
fixpoint, dangling edges skipped), and whose validity window satisfies
`starts <= now <= ends` (both bounds inclusive); with no matching grant
it returns `false`. -/
def hasPermission (db : Db) (grants : List Permission)
    (subject privilege target now : String) : Bool :=
  grants.any fun g =>
    g.privilege == privilege && g.target_object_id == target &&
      (ancestorSet db subject).contains g.identity_object_id &&
      strLe g.starts now && strLe now g.ends

/-- Claim C3: `HasPermission(subject, p, t, now) = true` iff some grant
with privilege `p` and target `t` has its grantee in the ancestor closure
of `subject` (a row of the `recursive_memberships` view with root
`subject`) and an active window `starts <= now <= ends`, both bounds
inclusive (so `starts = ends = now` is active since `strLe` is
reflexive); with no matching grant the result is `false`, never an error
(`hasPermission` is a total Boolean function). -/
theorem C3_hasPermission_iff (db : Db) (grants : List Permission)
    (s p t now : String) :
    hasPermission db grants s p t now = true ↔
      ∃ g ∈ grants, g.privilege = p ∧ g.target_object_id = t ∧
        viewAncestor db s g.identity_object_id ∧
        strLe g.starts now = true ∧ strLe now g.ends = true := by
  rw [hasPermission, List.any_eq_true]
  constructor
  · rintro ⟨g, hg, hcond⟩
    simp only [Bool.and_eq_true, beq_iff_eq] at hcond
    obtain ⟨⟨⟨⟨h1, h2⟩, h3⟩, h4⟩, h5⟩ := hcond
    exact ⟨g, hg, h1, h2,
      (ancestorSet_iff_viewAncestor db s _).mp (contains_eq_true_iff.mp h3), h4, h5⟩
  · rintro ⟨g, hg, h1, h2, h3, h4, h5⟩
    refine ⟨g, hg, ?_⟩
    simp only [Bool.and_eq_true, beq_iff_eq]
    exact ⟨⟨⟨⟨h1, h2⟩,
      contains_eq_true_iff.mpr ((ancestorSet_iff_viewAncestor db s _).mpr h3)⟩, h4⟩, h5⟩

/-- Scenario graph: user `U` in group `G1`, `G1` in `G2`, and the grant
`(read, G2, doc-1, 2000-01-01, 3000-01-01)`. -/
def idUs : Identity :=
  { object_id := "U", object_type := "user", email := "u@s",
    firstname := "U", fullname := none }

def idG1 : Identity :=
  { object_id := "G1", object_type := "group", email := "g1@s",
    firstname := "G1", fullname := none }

def idG2 : Identity :=
  { object_id := "G2", object_type := "group", email := "g2@s",
    firstname := "G2", fullname := none }

def dbS1 : Db :=
  { identities := [idUs, idG1, idG2],
    memberships := [⟨"U", "G1"⟩, ⟨"G1", "G2"⟩] }

def grant3 : Permission :=
  { privilege := "read", identity_object_id := "G2", target_object_id := "doc-1",
    starts := "2000-01-01 00:00:00", ends := "3000-01-01 00:00:00" }

theorem C3_hasPermission_iff_witness :
    ∃ g ∈ [grant3], g.privilege = "read" ∧ g.target_object_id = "doc-1" ∧
      viewAncestor dbS1 "U" g.identity_object_id ∧
      strLe g.starts "2025-01-01 00:00:00" = true ∧
      strLe "2025-01-01 00:00:00" g.ends = true :=
  (C3_hasPermission_iff dbS1 [grant3] "U" "read" "doc-1"
    "2025-01-01 00:00:00").mp (by decide)
